import Mathlib

/-!
Verification development for the Merit block-template assembler
(`src/miner.h`).  The header contains the full definitions of the
modified-entry record, its update functor, and the ordering comparators;
those are embedded directly.  The bodies of the `BlockAssembler` methods
(`CreateNewBlock`, `addPackageTxs`, `CheckReferrals`, `TestPackage`,
`SortForBlock`, `onlyUnconfirmed`, `SkipMapTxEntry`, `resetBlock`) are not
part of the source tree; they are modelled from the specification, as
marked on each definition.

Transaction and referral identities are modelled as natural numbers
(`uint256` hashes compare lexicographically, which for fixed-width
big-endian data coincides with numeric comparison).  Unsigned 64-bit
arithmetic is modelled on `Nat` with explicit reduction modulo `2 ^ 64`;
signed 64-bit quantities (`CAmount`, sigop costs) are modelled on `Int`.
Double-precision floating point, which the score comparator uses, is
modelled by rounding integers to 53 significant bits, round half to even.
-/

/-- A mempool entry as seen through the Transaction Source interface:
per-entry data (`GetFee`, `GetSize`, `GetSigOpCost`) together with the
with-ancestor aggregates (`GetSizeWithAncestors`, `GetSizeReferrals`,
`GetModFeesWithAncestors`, `GetSigOpCostWithAncestors`,
`GetCountWithAncestors`), the set of unconfirmed-ancestor identities, the
referral requirements of its outputs, and its locktime finality. -/
structure MemPoolEntry where
  txid : Nat
  fee : Int
  size : Nat
  sigOpCost : Int
  sizeWithAncestors : Nat
  sizeReferrals : Nat
  modFeesWithAncestors : Int
  sigOpCostWithAncestors : Int
  countWithAncestors : Nat
  ancestorIds : List Nat
  requiredRefs : List Nat
  isFinal : Bool
deriving DecidableEq

/-- `CTxMemPoolModifiedEntry` from `miner.h`: a provisional copy of a
candidate's with-ancestor aggregates plus a back-reference (`iter`) to the
mempool entry. -/
structure CTxMemPoolModifiedEntry where
  iter : MemPoolEntry
  nSizeWithAncestors : Nat
  nSizeReferrals : Nat
  nModFeesWithAncestors : Int
  nSigOpCostWithAncestors : Int
deriving DecidableEq

/-- The `CTxMemPoolModifiedEntry` constructor from `miner.h`: copies the
candidate's with-ancestor aggregates. -/
def CTxMemPoolModifiedEntry.init (entry : MemPoolEntry) : CTxMemPoolModifiedEntry :=
  { iter := entry
    nSizeWithAncestors := entry.sizeWithAncestors
    nSizeReferrals := entry.sizeReferrals
    nModFeesWithAncestors := entry.modFeesWithAncestors
    nSigOpCostWithAncestors := entry.sigOpCostWithAncestors }

/-- Unsigned 64-bit subtraction, wrapping modulo `2 ^ 64`. -/
def usub64 (x y : Nat) : Nat :=
  (x + (2 ^ 64 - y % 2 ^ 64)) % 2 ^ 64

/-- `update_for_parent_inclusion` from `miner.h`: on a parent-committed
notification for `it`, subtract `it`'s fee, size and sigop cost from the
entry's provisional with-ancestor aggregates.  `nSizeWithAncestors` is a
`uint64_t` in the source, so its subtraction wraps modulo `2 ^ 64`. -/
def update_for_parent_inclusion (it : MemPoolEntry) (e : CTxMemPoolModifiedEntry) :
    CTxMemPoolModifiedEntry :=
  { e with
    nModFeesWithAncestors := e.nModFeesWithAncestors - it.fee
    nSizeWithAncestors := usub64 e.nSizeWithAncestors it.size
    nSigOpCostWithAncestors := e.nSigOpCostWithAncestors - it.sigOpCost }

/-- The cumulative effect of the tracker's parent-committed notifications:
a modified entry freshly created from `entry` with
`update_for_parent_inclusion` applied once for each committed ancestor. -/
def appliedUpdates (entry : MemPoolEntry) (committed : List MemPoolEntry) :
    CTxMemPoolModifiedEntry :=
  committed.foldl (fun e a => update_for_parent_inclusion a e)
    (CTxMemPoolModifiedEntry.init entry)

/-- The binary exponent by which `n` must be shifted right to fit in 53
significant bits: the number of halvings until the value drops below
`2 ^ 53`.  The fuel bounds the recursion; 1100 halvings cover the whole
double-precision range. -/
def scale53 : Nat → Nat → Nat
  | 0, _ => 0
  | fuel + 1, n => if n < 2 ^ 53 then 0 else scale53 fuel (n / 2) + 1

/-- Round a natural number to the nearest IEEE-754 double-precision value
(53 significant bits, round half to even).  Values below `2 ^ 53` are
exactly representable. -/
def roundNat53 (n : Nat) : Nat :=
  if n < 2 ^ 53 then n
  else
    let e := scale53 1100 n
    let q := n / 2 ^ e
    let r := n % 2 ^ e
    let m := 2 ^ e / 2
    (if m < r ∨ (r = m ∧ q % 2 = 1) then q + 1 else q) * 2 ^ e

/-- Round an integer to the nearest double-precision value (rounding to
nearest is symmetric about zero). -/
def roundD (x : Int) : Int :=
  if x < 0 then -(roundNat53 x.natAbs : Int) else (roundNat53 x.natAbs : Int)

/-- Double-precision multiplication of two already-representable values:
the exact product, rounded. -/
def dmul (x y : Int) : Int := roundD (x * y)

/-- Modelled from the spec: `CompareIteratorByHash` (declared in
`txmempool.h`, which is not in the source tree) — the deterministic total
order over transaction identity, smaller content hash first. -/
def CompareIteratorByHash (a b : MemPoolEntry) : Bool :=
  decide (a.txid < b.txid)

/-- `CompareModifiedEntry` from `miner.h`: cross-multiplied ancestor
feerate comparison performed in `double` precision — `f1` is
`(double)a.nModFeesWithAncestors * b.nSizeWithAncestors`, `f2` the mirror
product; equal doubles fall back to the hash order, otherwise `f1 > f2`. -/
def CompareModifiedEntry (a b : CTxMemPoolModifiedEntry) : Bool :=
  let f1 := dmul (roundD a.nModFeesWithAncestors) ((roundNat53 b.nSizeWithAncestors : Int))
  let f2 := dmul (roundD b.nModFeesWithAncestors) ((roundNat53 a.nSizeWithAncestors : Int))
  if f1 = f2 then CompareIteratorByHash a.iter b.iter
  else decide (f2 < f1)

/-- `CompareTxIterByAncestorCount` from `miner.h`: order by number of
with-ancestor transactions, ties broken by the hash order. -/
def CompareTxIterByAncestorCount (a b : MemPoolEntry) : Bool :=
  if a.countWithAncestors ≠ b.countWithAncestors then
    decide (a.countWithAncestors < b.countWithAncestors)
  else CompareIteratorByHash a b

/-- Insert an entry into a list sorted by `CompareTxIterByAncestorCount`. -/
def insertByAncestorCount (x : MemPoolEntry) : List MemPoolEntry → List MemPoolEntry
  | [] => [x]
  | y :: ys =>
    if CompareTxIterByAncestorCount x y then x :: y :: ys
    else y :: insertByAncestorCount x ys

/-- Modelled from the spec: `BlockAssembler::SortForBlock` (body not in the
source tree) — sort the package into an order valid for a block using
`CompareTxIterByAncestorCount`. -/
def SortForBlock : List MemPoolEntry → List MemPoolEntry
  | [] => []
  | x :: xs => insertByAncestorCount x (SortForBlock xs)

/-- `BlockAssembler::Options` from `miner.h`: the configuration surface. -/
structure Options where
  nBlockMaxWeight : Nat
  nBlockMaxSize : Nat
  nTransactionsMaxSize : Nat
  blockMinFeeRate : Int
deriving DecidableEq

/-- Modelled from the spec: the protocol's per-block signature-op limit
(`MAX_BLOCK_SIGOPS_COST` of `consensus/consensus.h`, not in the source
tree). -/
def MAX_BLOCK_SIGOPS_COST : Int := 80000

/-- The mutable assembly state of `BlockAssembler`: running totals, the
included transaction and referral identities (in block order), the
template's parallel fee and sigop vectors, and the failed set. -/
structure AssemblyState where
  txsInBlock : List Nat
  vTxFees : List Int
  vTxSigOpsCost : List Int
  refsInBlock : List Nat
  nBlockWeight : Nat
  nBlockSize : Nat
  nBlockTx : Nat
  nBlockRef : Nat
  nBlockSigOpsCost : Int
  nFees : Int
  failedTx : List Nat
deriving DecidableEq

/-- Modelled from the spec: `BlockAssembler::resetBlock` — clear all
assembly state to empty and zero. -/
def resetBlock : AssemblyState :=
  { txsInBlock := []
    vTxFees := []
    vTxSigOpsCost := []
    refsInBlock := []
    nBlockWeight := 0
    nBlockSize := 0
    nBlockTx := 0
    nBlockRef := 0
    nBlockSigOpsCost := 0
    nFees := 0
    failedTx := [] }

/-- A fixed snapshot: the mempool entries (the Transaction Source), the
on-chain referrals and pending Referral Candidates (the Referral Source),
and the configuration. -/
structure Ctx where
  pool : List MemPoolEntry
  chainRefs : List Nat
  refPool : List Nat
  opts : Options
deriving DecidableEq

/-- Total serialized size of a set of entries. -/
def sumSize (l : List MemPoolEntry) : Nat := (l.map (fun e => e.size)).sum

/-- Total fee of a set of entries. -/
def sumFee (l : List MemPoolEntry) : Int := (l.map (fun e => e.fee)).sum

/-- Total signature-op cost of a set of entries. -/
def sumSigOp (l : List MemPoolEntry) : Int := (l.map (fun e => e.sigOpCost)).sum

/-- Modelled from the spec: `BlockAssembler::SkipMapTxEntry` (body not in
the source tree) — a candidate is skipped when it has already been
evaluated: already included in the block or already in the failed set. -/
def SkipMapTxEntry (s : AssemblyState) (e : MemPoolEntry) : Bool :=
  decide (e.txid ∈ s.txsInBlock) || decide (e.txid ∈ s.failedTx)

/-- Modelled from the spec: `BlockAssembler::onlyUnconfirmed` (body not in
the source tree) — remove entries already included in the block from the
given set. -/
def onlyUnconfirmed (s : AssemblyState) (testSet : List MemPoolEntry) : List MemPoolEntry :=
  testSet.filter (fun a => decide (a.txid ∉ s.txsInBlock))

/-- The in-pool entries of a candidate's unconfirmed-ancestor set. -/
def inPoolAncestors (pool : List MemPoolEntry) (c : MemPoolEntry) : List MemPoolEntry :=
  pool.filter (fun a => decide (a.txid ∈ c.ancestorIds))

/-- The ancestor package of a candidate: the candidate together with its
not-yet-included unconfirmed ancestors. -/
def packageOf (ctx : Ctx) (s : AssemblyState) (c : MemPoolEntry) : List MemPoolEntry :=
  c :: onlyUnconfirmed s (inPoolAncestors ctx.pool c)

/-- Modelled from the spec: `BlockAssembler::CheckReferrals` (body not in
the source tree) — a pure read-only predicate over a candidate package and
the current candidate-referral set: every referral-requiring output of the
package must be satisfied on-chain or among the candidate referrals.  The
in-out reference parameters of the C++ signature are returned unchanged. -/
def CheckReferrals (chainRefs : List Nat) (testSet : List MemPoolEntry)
    (candidateReferrals : List Nat) : Bool × List MemPoolEntry × List Nat :=
  (testSet.all (fun e => e.requiredRefs.all
      (fun r => decide (r ∈ chainRefs) || decide (r ∈ candidateReferrals))),
   testSet, candidateReferrals)

/-- Modelled from the spec: `BlockAssembler::TestPackage` (body not in the
source tree) — a package fits when adding it keeps the block within the
configured maximum weight (weight of a package being four times its
serialized size), the configured maximum size, and the protocol sigop
limit. -/
def TestPackage (opts : Options) (s : AssemblyState)
    (packageSize : Nat) (packageSigOpsCost : Int) : Bool :=
  decide (s.nBlockWeight + 4 * packageSize ≤ opts.nBlockMaxWeight) &&
  decide (s.nBlockSize + packageSize ≤ opts.nBlockMaxSize) &&
  decide (s.nBlockSigOpsCost + packageSigOpsCost ≤ MAX_BLOCK_SIGOPS_COST)

/-- Modelled from the spec: `BlockAssembler::TestPackageContent` (body not
in the source tree) — the defensive per-transaction re-checks (locktime
finality). -/
def TestPackageContent (transactions : List MemPoolEntry) : Bool :=
  transactions.all (fun e => e.isFinal)

/-- Modelled from the spec: `BlockAssembler::AddTransactionToBlock` —
append the transaction, its fee and its sigop cost to the template's
parallel vectors and update the running totals. -/
def AddTransactionToBlock (s : AssemblyState) (e : MemPoolEntry) : AssemblyState :=
  { s with
    txsInBlock := s.txsInBlock ++ [e.txid]
    vTxFees := s.vTxFees ++ [e.fee]
    vTxSigOpsCost := s.vTxSigOpsCost ++ [e.sigOpCost]
    nBlockWeight := s.nBlockWeight + 4 * e.size
    nBlockSize := s.nBlockSize + e.size
    nBlockTx := s.nBlockTx + 1
    nBlockSigOpsCost := s.nBlockSigOpsCost + e.sigOpCost
    nFees := s.nFees + e.fee }

/-- Modelled from the spec: the satisfying referrals for a committed
transaction that are not already on-chain are included in the same
template (`BlockAssembler::AddReferralToBlock`). -/
def AddReferralsForEntry (ctx : Ctx) (s : AssemblyState) (e : MemPoolEntry) : AssemblyState :=
  { s with
    refsInBlock := s.refsInBlock ++ e.requiredRefs.filter (fun r => decide (r ∉ ctx.chainRefs))
    nBlockRef := s.nBlockRef + (e.requiredRefs.filter (fun r => decide (r ∉ ctx.chainRefs))).length }

/-- Commit one package member: add the transaction and its required
referrals to the block. -/
def commitEntry (ctx : Ctx) (s : AssemblyState) (e : MemPoolEntry) : AssemblyState :=
  AddReferralsForEntry ctx (AddTransactionToBlock s e) e

/-- Commit a whole (sorted) package, member by member. -/
def commitPackage (ctx : Ctx) (s : AssemblyState) (sorted : List MemPoolEntry) : AssemblyState :=
  sorted.foldl (commitEntry ctx) s

/-- The committed ancestors of a candidate: pool entries that are in the
candidate's ancestor set and already included in the block. -/
def committedAncestors (pool : List MemPoolEntry) (s : AssemblyState)
    (e : MemPoolEntry) : List MemPoolEntry :=
  pool.filter (fun a => decide (a.txid ∈ e.ancestorIds) && decide (a.txid ∈ s.txsInBlock))

/-- The Modified-Ancestor Tracker's current view of a candidate: its
provisional aggregates after a parent-committed notification for every
already-committed ancestor. -/
def effectiveEntry (pool : List MemPoolEntry) (s : AssemblyState)
    (e : MemPoolEntry) : CTxMemPoolModifiedEntry :=
  (committedAncestors pool s e).foldl (fun me a => update_for_parent_inclusion a me)
    (CTxMemPoolModifiedEntry.init e)

/-- The not-yet-evaluated candidates under their current scores. -/
def eligible (ctx : Ctx) (s : AssemblyState) : List CTxMemPoolModifiedEntry :=
  (ctx.pool.filter (fun e => !SkipMapTxEntry s e)).map (effectiveEntry ctx.pool s)

/-- The best-scoring entry of a candidate list under
`CompareModifiedEntry`. -/
def selectBest : List CTxMemPoolModifiedEntry → Option CTxMemPoolModifiedEntry
  | [] => none
  | x :: xs =>
    match selectBest xs with
    | none => some x
    | some b => if CompareModifiedEntry x b then some x else some b

/-- Modelled from the spec: one candidate evaluation of the Package
Selector loop — materialize the package, run `CheckReferrals`, run the
feasibility tests; on any failure mark the top-level candidate failed,
otherwise sort the package with `SortForBlock` and commit every member. -/
def evalCandidate (ctx : Ctx) (s : AssemblyState) (m : CTxMemPoolModifiedEntry) : AssemblyState :=
  if !(CheckReferrals ctx.chainRefs (packageOf ctx s m.iter) ctx.refPool).1 then
    { s with failedTx := m.iter.txid :: s.failedTx }
  else if !(TestPackage ctx.opts s (sumSize (packageOf ctx s m.iter))
              (sumSigOp (packageOf ctx s m.iter)) &&
            TestPackageContent (packageOf ctx s m.iter)) then
    { s with failedTx := m.iter.txid :: s.failedTx }
  else
    commitPackage ctx s (SortForBlock (packageOf ctx s m.iter))

/-- Modelled from the spec: one iteration of the Package Selector loop —
pick the best-scoring not-yet-evaluated candidate and evaluate it; when no
candidate remains the state is unchanged. -/
def stepFn (ctx : Ctx) (s : AssemblyState) : AssemblyState :=
  match selectBest (eligible ctx s) with
  | none => s
  | some m => evalCandidate ctx s m

/-- The assembly state after `k` iterations of the selector loop, starting
from a freshly reset block. -/
def assemblySteps (ctx : Ctx) : Nat → AssemblyState
  | 0 => resetBlock
  | k + 1 => stepFn ctx (assemblySteps ctx k)

/-- Modelled from the spec: `BlockAssembler::addPackageTxs` — run the
selector loop to completion (each productive iteration either commits at
least one transaction or fails one candidate, so `2 * pool size + 1`
iterations exhaust the snapshot). -/
def addPackageTxs (ctx : Ctx) : AssemblyState :=
  assemblySteps ctx (2 * ctx.pool.length + 1)

/-- `CBlockTemplate` from `miner.h`: the block body (transaction and
referral identities in block order) with the positionally-aligned fee and
sigop-cost vectors and the coinbase-commitment bytes. -/
structure CBlockTemplate where
  vtx : List Nat
  vTxFees : List Int
  vTxSigOpsCost : List Int
  vchCoinbaseCommitment : List Nat
  refs : List Nat
deriving DecidableEq

/-- Modelled from the spec: `BlockAssembler::CreateNewBlock` — reset the
block state, run the package selector to completion on the snapshot, and
return the finished immutable template.  `scriptPubKeyIn` is the payout
script of the coinbase placeholder, which the model does not inspect. -/
def CreateNewBlock (scriptPubKeyIn : Nat) (ctx : Ctx) : CBlockTemplate :=
  let s := addPackageTxs ctx
  { vtx := s.txsInBlock
    vTxFees := s.vTxFees
    vTxSigOpsCost := s.vTxSigOpsCost
    vchCoinbaseCommitment := []
    refs := s.refsInBlock }

/-- Well-formedness of a mempool snapshot: transaction identities are
unique, and the ancestor relation is transitively closed — every ancestor
identity resolves to a pool entry whose own ancestors are ancestors of the
descendant as well. -/
def PoolWF (pool : List MemPoolEntry) : Prop :=
  (pool.map MemPoolEntry.txid).Nodup ∧
  ∀ e ∈ pool, ∀ aid ∈ e.ancestorIds,
    ∃ a ∈ pool, a.txid = aid ∧ a.ancestorIds ⊆ e.ancestorIds

instance (pool : List MemPoolEntry) : Decidable (PoolWF pool) := by
  unfold PoolWF
  infer_instance

/-- The budget invariant of the assembly state: running totals within the
configured weight and size limits and the protocol sigop limit. -/
def BudgetInv (opts : Options) (s : AssemblyState) : Prop :=
  s.nBlockWeight ≤ opts.nBlockMaxWeight ∧
  s.nBlockSize ≤ opts.nBlockMaxSize ∧
  s.nBlockSigOpsCost ≤ MAX_BLOCK_SIGOPS_COST

/-- Package atomicity as a state invariant: every included pool entry has
all of its unconfirmed ancestors included as well. -/
def AncInv (ctx : Ctx) (s : AssemblyState) : Prop :=
  ∀ e ∈ ctx.pool, e.txid ∈ s.txsInBlock → ∀ aid ∈ e.ancestorIds, aid ∈ s.txsInBlock

/-- Referral satisfaction as a state invariant: every referral-requiring
output of every included pool entry is satisfied on-chain or by a referral
included in the block. -/
def RefInv (ctx : Ctx) (s : AssemblyState) : Prop :=
  ∀ e ∈ ctx.pool, e.txid ∈ s.txsInBlock →
    ∀ r ∈ e.requiredRefs, r ∈ ctx.chainRefs ∨ r ∈ s.refsInBlock

/-- A small configuration used as a concrete evaluation fixture. -/
def optsW : Options :=
  { nBlockMaxWeight := 4000
    nBlockMaxSize := 1000
    nTransactionsMaxSize := 1000
    blockMinFeeRate := 0 }

/-- Fixture: an independent transaction. -/
def txA : MemPoolEntry :=
  { txid := 1, fee := 10, size := 100, sigOpCost := 1
    sizeWithAncestors := 100, sizeReferrals := 0
    modFeesWithAncestors := 10, sigOpCostWithAncestors := 1
    countWithAncestors := 1, ancestorIds := [], requiredRefs := [], isFinal := true }

/-- Fixture: a transaction whose only unconfirmed ancestor is `txA`. -/
def txB : MemPoolEntry :=
  { txid := 2, fee := 20, size := 150, sigOpCost := 1
    sizeWithAncestors := 250, sizeReferrals := 0
    modFeesWithAncestors := 30, sigOpCostWithAncestors := 2
    countWithAncestors := 2, ancestorIds := [1], requiredRefs := [], isFinal := true }

/-- Fixture: a two-transaction snapshot with a parent-child dependency. -/
def ctxW : Ctx := { pool := [txA, txB], chainRefs := [], refPool := [], opts := optsW }

/-- Fixture: a transaction requiring referral 7, which the referral pool
can satisfy. -/
def txR : MemPoolEntry :=
  { txid := 3, fee := 10, size := 100, sigOpCost := 1
    sizeWithAncestors := 100, sizeReferrals := 10
    modFeesWithAncestors := 10, sigOpCostWithAncestors := 1
    countWithAncestors := 1, ancestorIds := [], requiredRefs := [7], isFinal := true }

/-- Fixture: a snapshot where the pending referral 7 satisfies `txR`. -/
def ctxR : Ctx := { pool := [txR], chainRefs := [], refPool := [7], opts := optsW }

/-- Fixture: a transaction requiring referral 9, which nothing satisfies. -/
def txM : MemPoolEntry :=
  { txid := 4, fee := 10, size := 100, sigOpCost := 1
    sizeWithAncestors := 100, sizeReferrals := 10
    modFeesWithAncestors := 10, sigOpCostWithAncestors := 1
    countWithAncestors := 1, ancestorIds := [], requiredRefs := [9], isFinal := true }

/-- Fixture: a snapshot where the referral required by `txM` is missing. -/
def ctxM : Ctx := { pool := [txM], chainRefs := [], refPool := [], opts := optsW }

/-- Fixture: the mempool entry behind the first comparator counterexample
operand (identity hash 5). -/
def cexIterA : MemPoolEntry :=
  { txid := 5, fee := 0, size := 1, sigOpCost := 0
    sizeWithAncestors := 1, sizeReferrals := 0
    modFeesWithAncestors := 0, sigOpCostWithAncestors := 0
    countWithAncestors := 1, ancestorIds := [], requiredRefs := [], isFinal := true }

/-- Fixture: the mempool entry behind the second comparator counterexample
operand (identity hash 3). -/
def cexIterB : MemPoolEntry :=
  { txid := 3, fee := 0, size := 1, sigOpCost := 0
    sizeWithAncestors := 1, sizeReferrals := 0
    modFeesWithAncestors := 0, sigOpCostWithAncestors := 0
    countWithAncestors := 1, ancestorIds := [], requiredRefs := [], isFinal := true }

/-- Fixture: modified entry whose exact cross-product is `2 ^ 53 + 1`, one
unit above the largest odd integer a double can represent. -/
def cexA : CTxMemPoolModifiedEntry :=
  { iter := cexIterA, nSizeWithAncestors := 1, nSizeReferrals := 0
    nModFeesWithAncestors := 2 ^ 53 + 1, nSigOpCostWithAncestors := 0 }

/-- Fixture: modified entry whose exact cross-product is `2 ^ 53`. -/
def cexB : CTxMemPoolModifiedEntry :=
  { iter := cexIterB, nSizeWithAncestors := 1, nSizeReferrals := 0
    nModFeesWithAncestors := 2 ^ 53, nSigOpCostWithAncestors := 0 }

/-- Fixture: ancestor-package member with no own ancestors and a low
ancestor-feerate score. -/
def sortA : MemPoolEntry :=
  { txid := 10, fee := 1, size := 100, sigOpCost := 1
    sizeWithAncestors := 100, sizeReferrals := 0
    modFeesWithAncestors := 1, sigOpCostWithAncestors := 1
    countWithAncestors := 1, ancestorIds := [], requiredRefs := [], isFinal := true }

/-- Fixture: ancestor-package member independent of `sortA` (its sole
ancestor, 8, is outside the package) with a high ancestor-feerate score. -/
def sortB : MemPoolEntry :=
  { txid := 11, fee := 400, size := 50, sigOpCost := 1
    sizeWithAncestors := 150, sizeReferrals := 0
    modFeesWithAncestors := 500, sigOpCostWithAncestors := 2
    countWithAncestors := 2, ancestorIds := [8], requiredRefs := [], isFinal := true }

/-- Fixture: the top-level candidate of the package containing `sortA` and
`sortB`. -/
def sortC : MemPoolEntry :=
  { txid := 12, fee := 50, size := 100, sigOpCost := 1
    sizeWithAncestors := 350, sizeReferrals := 0
    modFeesWithAncestors := 551, sigOpCostWithAncestors := 4
    countWithAncestors := 4, ancestorIds := [10, 11, 8], requiredRefs := [], isFinal := true }

/-- Fixture: a candidate entry for the tracker-aggregate witness. -/
def trackedEntry : MemPoolEntry :=
  { txid := 20, fee := 40, size := 50, sigOpCost := 3
    sizeWithAncestors := 300, sizeReferrals := 0
    modFeesWithAncestors := 100, sigOpCostWithAncestors := 10
    countWithAncestors := 3, ancestorIds := [1, 2], requiredRefs := [], isFinal := true }

/-! ## Helper lemmas -/

theorem usub64_exact {x y : Nat} (h1 : y ≤ x) (h2 : x < 2 ^ 64) : usub64 x y = x - y := by
  have h64 : (2 : Nat) ^ 64 = 18446744073709551616 := by norm_num
  unfold usub64
  rw [h64] at h2 ⊢
  omega

theorem update_fields (it : MemPoolEntry) (e : CTxMemPoolModifiedEntry) :
    (update_for_parent_inclusion it e).nModFeesWithAncestors = e.nModFeesWithAncestors - it.fee ∧
    (update_for_parent_inclusion it e).nSizeWithAncestors = usub64 e.nSizeWithAncestors it.size ∧
    (update_for_parent_inclusion it e).nSigOpCostWithAncestors
        = e.nSigOpCostWithAncestors - it.sigOpCost ∧
    (update_for_parent_inclusion it e).nSizeReferrals = e.nSizeReferrals ∧
    (update_for_parent_inclusion it e).iter = e.iter :=
  ⟨rfl, rfl, rfl, rfl, rfl⟩

theorem sumSize_cons (a : MemPoolEntry) (t : List MemPoolEntry) :
    sumSize (a :: t) = a.size + sumSize t := by
  simp [sumSize]

theorem sumFee_cons (a : MemPoolEntry) (t : List MemPoolEntry) :
    sumFee (a :: t) = a.fee + sumFee t := by
  simp [sumFee]

theorem sumSigOp_cons (a : MemPoolEntry) (t : List MemPoolEntry) :
    sumSigOp (a :: t) = a.sigOpCost + sumSigOp t := by
  simp [sumSigOp]

theorem foldl_update_fields (l : List MemPoolEntry) :
    ∀ me : CTxMemPoolModifiedEntry, sumSize l ≤ me.nSizeWithAncestors →
      me.nSizeWithAncestors < 2 ^ 64 →
      (l.foldl (fun me a => update_for_parent_inclusion a me) me).nModFeesWithAncestors
          = me.nModFeesWithAncestors - sumFee l ∧
      (l.foldl (fun me a => update_for_parent_inclusion a me) me).nSizeWithAncestors
          = me.nSizeWithAncestors - sumSize l ∧
      (l.foldl (fun me a => update_for_parent_inclusion a me) me).nSigOpCostWithAncestors
          = me.nSigOpCostWithAncestors - sumSigOp l := by
  induction l with
  | nil =>
    intro me h1 h2
    simp [sumFee, sumSize, sumSigOp]
  | cons a t ih =>
    intro me h1 h2
    rw [sumSize_cons] at h1
    have hupd : (update_for_parent_inclusion a me).nSizeWithAncestors
        = me.nSizeWithAncestors - a.size := by
      rw [(update_fields a me).2.1, usub64_exact (by omega) h2]
    obtain ⟨ihf, ihs, ihg⟩ := ih (update_for_parent_inclusion a me)
      (by rw [hupd]; omega) (by rw [hupd]; omega)
    rw [List.foldl_cons]
    refine ⟨?_, ?_, ?_⟩
    · rw [ihf, (update_fields a me).1, sumFee_cons]
      omega
    · rw [ihs, hupd, sumSize_cons]
      omega
    · rw [ihg, (update_fields a me).2.2.1, sumSigOp_cons]
      omega

theorem roundNat53_small {n : Nat} (h : n < 2 ^ 53) : roundNat53 n = n := by
  unfold roundNat53
  rw [if_pos h]

theorem roundD_small {x : Int} (h0 : 0 ≤ x) (h : x < 2 ^ 53) : roundD x = x := by
  have h53 : (2 : Int) ^ 53 = 9007199254740992 := by norm_num
  have h53n : (2 : Nat) ^ 53 = 9007199254740992 := by norm_num
  rw [h53] at h
  unfold roundD
  rw [if_neg (by omega)]
  rw [roundNat53_small (by rw [h53n]; omega)]
  omega

/-! ## Claim C10 -/

/-- Claim C10: a parent-committed update changes only the three
with-ancestor aggregate fields (fee, size, sigop cost, by the exact
per-ancestor decrements); the `nSizeReferrals` field and the `iter`
back-reference are unchanged by every such update. -/
theorem update_for_parent_inclusion_frame (it : MemPoolEntry) (e : CTxMemPoolModifiedEntry) :
    (update_for_parent_inclusion it e).nModFeesWithAncestors = e.nModFeesWithAncestors - it.fee ∧
    (update_for_parent_inclusion it e).nSizeWithAncestors = usub64 e.nSizeWithAncestors it.size ∧
    (update_for_parent_inclusion it e).nSigOpCostWithAncestors
        = e.nSigOpCostWithAncestors - it.sigOpCost ∧
    (update_for_parent_inclusion it e).nSizeReferrals = e.nSizeReferrals ∧
    (update_for_parent_inclusion it e).iter = e.iter :=
  ⟨rfl, rfl, rfl, rfl, rfl⟩

/-! ## Claim C9 -/

/-- Claim C9: `CheckReferrals` is a pure read-only predicate — it returns
the package set and candidate-referral set unchanged, and its boolean
result holds exactly when every referral-requiring output of the package
is satisfied on-chain or among the candidate referrals. -/
theorem CheckReferrals_pure_predicate (chainRefs : List Nat) (testSet : List MemPoolEntry)
    (candidateReferrals : List Nat) :
    (CheckReferrals chainRefs testSet candidateReferrals).2.1 = testSet ∧
    (CheckReferrals chainRefs testSet candidateReferrals).2.2 = candidateReferrals ∧
    ((CheckReferrals chainRefs testSet candidateReferrals).1 = true ↔
      ∀ e ∈ testSet, ∀ r ∈ e.requiredRefs, r ∈ chainRefs ∨ r ∈ candidateReferrals) := by
  refine ⟨rfl, rfl, ?_⟩
  simp [CheckReferrals, List.all_eq_true, decide_eq_true_eq]

/-! ## Claim C5 -/

/-- Claim C5: a Modified Entry is created holding copies of the
candidate's with-ancestor aggregates, and applying the parent-committed
update once per committed ancestor leaves aggregates equal to the
candidate's original aggregates minus the summed fee, size and sigop cost
of those ancestors (for any ancestor sizes consistent with the 64-bit
aggregates of a real snapshot). -/
theorem modified_entry_tracks_committed_ancestors (entry : MemPoolEntry)
    (committed : List MemPoolEntry)
    (hle : sumSize committed ≤ entry.sizeWithAncestors)
    (hlt : entry.sizeWithAncestors < 2 ^ 64) :
    (CTxMemPoolModifiedEntry.init entry).nModFeesWithAncestors = entry.modFeesWithAncestors ∧
    (CTxMemPoolModifiedEntry.init entry).nSizeWithAncestors = entry.sizeWithAncestors ∧
    (CTxMemPoolModifiedEntry.init entry).nSigOpCostWithAncestors
        = entry.sigOpCostWithAncestors ∧
    (appliedUpdates entry committed).nModFeesWithAncestors
        = entry.modFeesWithAncestors - sumFee committed ∧
    (appliedUpdates entry committed).nSizeWithAncestors
        = entry.sizeWithAncestors - sumSize committed ∧
    (appliedUpdates entry committed).nSigOpCostWithAncestors
        = entry.sigOpCostWithAncestors - sumSigOp committed := by
  obtain ⟨hf, hs, hg⟩ :=
    foldl_update_fields committed (CTxMemPoolModifiedEntry.init entry) hle hlt
  exact ⟨rfl, rfl, rfl, hf, hs, hg⟩

/-- Witness for C5 at a concrete candidate and two committed ancestors. -/
theorem modified_entry_tracks_committed_ancestors_w :
    sumSize [txA, txB] ≤ trackedEntry.sizeWithAncestors ∧
    trackedEntry.sizeWithAncestors < 2 ^ 64 ∧
    (appliedUpdates trackedEntry [txA, txB]).nModFeesWithAncestors
        = trackedEntry.modFeesWithAncestors - sumFee [txA, txB] :=
  ⟨by decide, by decide,
   (modified_entry_tracks_committed_ancestors trackedEntry [txA, txB]
      (by decide) (by decide)).2.2.2.1⟩

/-! ## Claim C1 -/

/-- Claim C1: `CreateNewBlock` is deterministic — two calls on the same
snapshot and configuration yield templates with identical transaction
ordering and identical fee and sigop-cost vectors. -/
theorem CreateNewBlock_deterministic (scriptPubKeyIn : Nat) (ctx : Ctx)
    (t1 t2 : CBlockTemplate)
    (h1 : t1 = CreateNewBlock scriptPubKeyIn ctx)
    (h2 : t2 = CreateNewBlock scriptPubKeyIn ctx) :
    t1.vtx = t2.vtx ∧ t1.vTxFees = t2.vTxFees ∧ t1.vTxSigOpsCost = t2.vTxSigOpsCost ∧
    t1.refs = t2.refs := by
  subst h1
  subst h2
  exact ⟨rfl, rfl, rfl, rfl⟩

/-- Witness for C1 at the concrete two-transaction snapshot. -/
theorem CreateNewBlock_deterministic_w :
    (CreateNewBlock 0 ctxW).vtx = (CreateNewBlock 0 ctxW).vtx ∧
    (CreateNewBlock 0 ctxW).vTxFees = (CreateNewBlock 0 ctxW).vTxFees ∧
    (CreateNewBlock 0 ctxW).vTxSigOpsCost = (CreateNewBlock 0 ctxW).vTxSigOpsCost ∧
    (CreateNewBlock 0 ctxW).refs = (CreateNewBlock 0 ctxW).refs :=
  CreateNewBlock_deterministic 0 ctxW (CreateNewBlock 0 ctxW) (CreateNewBlock 0 ctxW) rfl rfl

/-! ## Claim C4 -/

/-- Counterexample for C4 as stated: at cross-products `2 ^ 53 + 1` versus
`2 ^ 53` the exact comparison says the first entry ranks strictly higher,
but the double-precision comparator rounds both products to `2 ^ 53`,
falls into the tie branch, and returns false because the first entry's
hash is larger. -/
theorem CompareModifiedEntry_double_rounding_cex :
    CompareModifiedEntry cexA cexB = false ∧
    cexB.nModFeesWithAncestors * (cexA.nSizeWithAncestors : Int)
      < cexA.nModFeesWithAncestors * (cexB.nSizeWithAncestors : Int) := by
  constructor
  · decide
  · decide

/-- Claim C4 (amended): the comparator computes both cross-products in
double precision; whenever fees are nonnegative and every operand and both
exact cross-products lie below `2 ^ 53` (so that no rounding occurs), it
orders `a` strictly before `b` exactly when
`a.feesWithAncestors * b.sizeWithAncestors > b.feesWithAncestors *
a.sizeWithAncestors` under exact integer arithmetic, with equal products
ordered by the smaller transaction identity hash first. -/
theorem CompareModifiedEntry_exact_on_small (a b : CTxMemPoolModifiedEntry)
    (ha0 : 0 ≤ a.nModFeesWithAncestors) (hb0 : 0 ≤ b.nModFeesWithAncestors)
    (ha : a.nModFeesWithAncestors < 2 ^ 53) (hb : b.nModFeesWithAncestors < 2 ^ 53)
    (hsa : a.nSizeWithAncestors < 2 ^ 53) (hsb : b.nSizeWithAncestors < 2 ^ 53)
    (hp1 : a.nModFeesWithAncestors * (b.nSizeWithAncestors : Int) < 2 ^ 53)
    (hp2 : b.nModFeesWithAncestors * (a.nSizeWithAncestors : Int) < 2 ^ 53) :
    (CompareModifiedEntry a b = true ↔
      b.nModFeesWithAncestors * (a.nSizeWithAncestors : Int)
          < a.nModFeesWithAncestors * (b.nSizeWithAncestors : Int) ∨
        (a.nModFeesWithAncestors * (b.nSizeWithAncestors : Int)
            = b.nModFeesWithAncestors * (a.nSizeWithAncestors : Int) ∧
          a.iter.txid < b.iter.txid)) := by
  have hA : roundD a.nModFeesWithAncestors = a.nModFeesWithAncestors := roundD_small ha0 ha
  have hB : roundD b.nModFeesWithAncestors = b.nModFeesWithAncestors := roundD_small hb0 hb
  have hSA : ((roundNat53 a.nSizeWithAncestors : Nat) : Int) = (a.nSizeWithAncestors : Int) := by
    rw [roundNat53_small hsa]
  have hSB : ((roundNat53 b.nSizeWithAncestors : Nat) : Int) = (b.nSizeWithAncestors : Int) := by
    rw [roundNat53_small hsb]
  have hD1 : dmul a.nModFeesWithAncestors (b.nSizeWithAncestors : Int)
      = a.nModFeesWithAncestors * (b.nSizeWithAncestors : Int) := by
    unfold dmul
    exact roundD_small (mul_nonneg ha0 (Int.natCast_nonneg _)) hp1
  have hD2 : dmul b.nModFeesWithAncestors (a.nSizeWithAncestors : Int)
      = b.nModFeesWithAncestors * (a.nSizeWithAncestors : Int) := by
    unfold dmul
    exact roundD_small (mul_nonneg hb0 (Int.natCast_nonneg _)) hp2
  simp only [CompareModifiedEntry, hA, hB, hSA, hSB, hD1, hD2, CompareIteratorByHash]
  by_cases heq : a.nModFeesWithAncestors * (b.nSizeWithAncestors : Int)
      = b.nModFeesWithAncestors * (a.nSizeWithAncestors : Int)
  · rw [if_pos heq, heq]
    simp [decide_eq_true_eq, lt_irrefl]
  · rw [if_neg heq]
    simp only [decide_eq_true_eq]
    constructor
    · intro hlt
      exact Or.inl hlt
    · intro hor
      rcases hor with hlt | ⟨he, _⟩
      · exact hlt
      · exact absurd he heq

/-- Witness for the amended C4 at two small concrete entries. -/
theorem CompareModifiedEntry_exact_on_small_w :
    (0 : Int) ≤ (CTxMemPoolModifiedEntry.init txA).nModFeesWithAncestors ∧
    (0 : Int) ≤ (CTxMemPoolModifiedEntry.init txB).nModFeesWithAncestors ∧
    (CTxMemPoolModifiedEntry.init txA).nModFeesWithAncestors < 2 ^ 53 ∧
    (CTxMemPoolModifiedEntry.init txB).nModFeesWithAncestors < 2 ^ 53 ∧
    (CTxMemPoolModifiedEntry.init txA).nSizeWithAncestors < 2 ^ 53 ∧
    (CTxMemPoolModifiedEntry.init txB).nSizeWithAncestors < 2 ^ 53 ∧
    (CompareModifiedEntry (CTxMemPoolModifiedEntry.init txA)
        (CTxMemPoolModifiedEntry.init txB) = true ↔
      (CTxMemPoolModifiedEntry.init txB).nModFeesWithAncestors
          * ((CTxMemPoolModifiedEntry.init txA).nSizeWithAncestors : Int)
          < (CTxMemPoolModifiedEntry.init txA).nModFeesWithAncestors
          * ((CTxMemPoolModifiedEntry.init txB).nSizeWithAncestors : Int) ∨
        ((CTxMemPoolModifiedEntry.init txA).nModFeesWithAncestors
            * ((CTxMemPoolModifiedEntry.init txB).nSizeWithAncestors : Int)
            = (CTxMemPoolModifiedEntry.init txB).nModFeesWithAncestors
            * ((CTxMemPoolModifiedEntry.init txA).nSizeWithAncestors : Int) ∧
          (CTxMemPoolModifiedEntry.init txA).iter.txid
            < (CTxMemPoolModifiedEntry.init txB).iter.txid)) :=
  ⟨by decide, by decide, by decide, by decide, by decide, by decide,
   CompareModifiedEntry_exact_on_small (CTxMemPoolModifiedEntry.init txA)
     (CTxMemPoolModifiedEntry.init txB) (by decide) (by decide) (by decide) (by decide)
     (by decide) (by decide) (by decide) (by decide)⟩

/-! ## Ordering lemmas for `SortForBlock` -/

theorem cmp_iff (a b : MemPoolEntry) :
    CompareTxIterByAncestorCount a b = true ↔
      (a.countWithAncestors < b.countWithAncestors ∨
       (a.countWithAncestors = b.countWithAncestors ∧ a.txid < b.txid)) := by
  unfold CompareTxIterByAncestorCount CompareIteratorByHash
  by_cases h : a.countWithAncestors = b.countWithAncestors
  · rw [if_neg (by simp [h])]
    simp [decide_eq_true_eq, h]
  · rw [if_pos h]
    simp [decide_eq_true_eq, h]

theorem cmp_asymm {a b : MemPoolEntry} (h : CompareTxIterByAncestorCount a b = true) :
    CompareTxIterByAncestorCount b a = false := by
  have hn : ¬ CompareTxIterByAncestorCount b a = true := by
    rw [cmp_iff] at h ⊢
    omega
  exact Bool.eq_false_iff.mpr hn

theorem cmp_trans {a b c : MemPoolEntry} (h1 : CompareTxIterByAncestorCount a b = true)
    (h2 : CompareTxIterByAncestorCount b c = true) :
    CompareTxIterByAncestorCount a c = true := by
  rw [cmp_iff] at h1 h2 ⊢
  omega

theorem mem_insertByAncestorCount {z x : MemPoolEntry} {l : List MemPoolEntry} :
    z ∈ insertByAncestorCount x l ↔ z = x ∨ z ∈ l := by
  induction l with
  | nil => simp [insertByAncestorCount]
  | cons y ys ih =>
    unfold insertByAncestorCount
    by_cases h : CompareTxIterByAncestorCount x y = true
    · rw [if_pos h]
      simp
    · rw [if_neg h]
      simp [ih]
      tauto

theorem insertByAncestorCount_perm (x : MemPoolEntry) (l : List MemPoolEntry) :
    List.Perm (insertByAncestorCount x l) (x :: l) := by
  induction l with
  | nil => exact List.Perm.refl _
  | cons y ys ih =>
    unfold insertByAncestorCount
    by_cases h : CompareTxIterByAncestorCount x y = true
    · rw [if_pos h]
    · rw [if_neg h]
      exact List.Perm.trans (List.Perm.cons y ih) (List.Perm.swap x y ys)

theorem SortForBlock_perm (l : List MemPoolEntry) : List.Perm (SortForBlock l) l := by
  induction l with
  | nil => exact List.Perm.refl _
  | cons x xs ih =>
    exact List.Perm.trans (insertByAncestorCount_perm _ _) (List.Perm.cons x ih)

theorem pairwise_insertByAncestorCount {x : MemPoolEntry} {l : List MemPoolEntry}
    (h : l.Pairwise (fun u v => CompareTxIterByAncestorCount v u = false)) :
    (insertByAncestorCount x l).Pairwise
      (fun u v => CompareTxIterByAncestorCount v u = false) := by
  induction l with
  | nil => simp [insertByAncestorCount]
  | cons y ys ih =>
    rw [List.pairwise_cons] at h
    obtain ⟨hy, hys⟩ := h
    unfold insertByAncestorCount
    by_cases hxy : CompareTxIterByAncestorCount x y = true
    · rw [if_pos hxy, List.pairwise_cons]
      constructor
      · intro z hz
        rcases List.mem_cons.mp hz with rfl | hz'
        · exact cmp_asymm hxy
        · cases hzx : CompareTxIterByAncestorCount z x with
          | false => rfl
          | true => exact absurd (cmp_trans hzx hxy) (by simp [hy z hz'])
      · rw [List.pairwise_cons]
        exact ⟨hy, hys⟩
    · rw [if_neg hxy, List.pairwise_cons]
      constructor
      · intro z hz
        rcases mem_insertByAncestorCount.mp hz with rfl | hz'
        · exact Bool.eq_false_iff.mpr hxy
        · exact hy z hz'
      · exact ih hys

theorem SortForBlock_pairwise (l : List MemPoolEntry) :
    (SortForBlock l).Pairwise (fun u v => CompareTxIterByAncestorCount v u = false) := by
  induction l with
  | nil => simp [SortForBlock]
  | cons x xs ih => exact pairwise_insertByAncestorCount ih

/-! ## Claim C7 -/

/-- Counterexample for C7 as stated: in the package with candidate `sortC`
and its mutually independent ancestors `sortA` and `sortB`, `SortForBlock`
emits `sortA` before `sortB` although `sortA` has the strictly lower
ancestor-feerate score — the comparator orders by ancestor count, not by
descending score. -/
theorem SortForBlock_not_descending_score_cex :
    SortForBlock [sortC, sortA, sortB] = [sortA, sortB, sortC] ∧
    sortA.txid ∉ sortB.ancestorIds ∧ sortB.txid ∉ sortA.ancestorIds ∧
    sortA.modFeesWithAncestors * (sortB.sizeWithAncestors : Int)
      < sortB.modFeesWithAncestors * (sortA.sizeWithAncestors : Int) := by
  refine ⟨?_, ?_, ?_, ?_⟩ <;> decide

/-- Claim C7 (amended): for every package whose with-ancestor counts are
consistent with its ancestor relation, `SortForBlock` emits a permutation
of the members in which every ancestor appears strictly before any of its
descendants; members are ordered by ascending with-ancestor count with
ties broken by transaction identity hash (not by descending score). -/
theorem SortForBlock_topological_by_ancestor_count (package : List MemPoolEntry)
    (hcount : ∀ a ∈ package, ∀ b ∈ package, a.txid ∈ b.ancestorIds →
        a.countWithAncestors < b.countWithAncestors) :
    List.Perm (SortForBlock package) package ∧
    (SortForBlock package).Pairwise
      (fun u v => CompareTxIterByAncestorCount v u = false) ∧
    (SortForBlock package).Pairwise (fun u v => v.txid ∉ u.ancestorIds) := by
  have hperm := SortForBlock_perm package
  have hpw := SortForBlock_pairwise package
  refine ⟨hperm, hpw, ?_⟩
  refine List.Pairwise.imp_of_mem ?_ hpw
  intro u v hu hv hR hmem
  have hu' : u ∈ package := hperm.mem_iff.mp hu
  have hv' : v ∈ package := hperm.mem_iff.mp hv
  have hlt := hcount v hv' u hu' hmem
  have htrue : CompareTxIterByAncestorCount v u = true := by
    rw [cmp_iff]
    exact Or.inl hlt
  rw [htrue] at hR
  exact absurd hR (by decide)

/-- Witness for the amended C7 at the concrete three-member package. -/
theorem SortForBlock_topological_by_ancestor_count_w :
    (∀ a ∈ [sortC, sortA, sortB], ∀ b ∈ [sortC, sortA, sortB],
        a.txid ∈ b.ancestorIds → a.countWithAncestors < b.countWithAncestors) ∧
    List.Perm (SortForBlock [sortC, sortA, sortB]) [sortC, sortA, sortB] :=
  ⟨by decide,
   (SortForBlock_topological_by_ancestor_count [sortC, sortA, sortB] (by decide)).1⟩

/-! ## Selector-loop lemmas -/

theorem commitEntry_fields (ctx : Ctx) (s : AssemblyState) (e : MemPoolEntry) :
    (commitEntry ctx s e).txsInBlock = s.txsInBlock ++ [e.txid] ∧
    (commitEntry ctx s e).nBlockWeight = s.nBlockWeight + 4 * e.size ∧
    (commitEntry ctx s e).nBlockSize = s.nBlockSize + e.size ∧
    (commitEntry ctx s e).nBlockSigOpsCost = s.nBlockSigOpsCost + e.sigOpCost ∧
    (commitEntry ctx s e).failedTx = s.failedTx ∧
    (commitEntry ctx s e).refsInBlock
        = s.refsInBlock ++ e.requiredRefs.filter (fun r => decide (r ∉ ctx.chainRefs)) :=
  ⟨rfl, rfl, rfl, rfl, rfl, rfl⟩

theorem commitPackage_txs (ctx : Ctx) (l : List MemPoolEntry) :
    ∀ s : AssemblyState,
      (commitPackage ctx s l).txsInBlock = s.txsInBlock ++ l.map MemPoolEntry.txid := by
  induction l with
  | nil => intro s; simp [commitPackage]
  | cons e t ih =>
    intro s
    show (commitPackage ctx (commitEntry ctx s e) t).txsInBlock = _
    rw [ih, (commitEntry_fields ctx s e).1]
    simp

theorem commitPackage_weight (ctx : Ctx) (l : List MemPoolEntry) :
    ∀ s : AssemblyState,
      (commitPackage ctx s l).nBlockWeight = s.nBlockWeight + 4 * sumSize l := by
  induction l with
  | nil => intro s; simp [commitPackage, sumSize]
  | cons e t ih =>
    intro s
    show (commitPackage ctx (commitEntry ctx s e) t).nBlockWeight = _
    rw [ih, (commitEntry_fields ctx s e).2.1, sumSize_cons]
    ring

theorem commitPackage_size (ctx : Ctx) (l : List MemPoolEntry) :
    ∀ s : AssemblyState,
      (commitPackage ctx s l).nBlockSize = s.nBlockSize + sumSize l := by
  induction l with
  | nil => intro s; simp [commitPackage, sumSize]
  | cons e t ih =>
    intro s
    show (commitPackage ctx (commitEntry ctx s e) t).nBlockSize = _
    rw [ih, (commitEntry_fields ctx s e).2.2.1, sumSize_cons]
    ring

theorem commitPackage_sigops (ctx : Ctx) (l : List MemPoolEntry) :
    ∀ s : AssemblyState,
      (commitPackage ctx s l).nBlockSigOpsCost = s.nBlockSigOpsCost + sumSigOp l := by
  induction l with
  | nil => intro s; simp [commitPackage, sumSigOp]
  | cons e t ih =>
    intro s
    show (commitPackage ctx (commitEntry ctx s e) t).nBlockSigOpsCost = _
    rw [ih, (commitEntry_fields ctx s e).2.2.2.1, sumSigOp_cons]
    ring

theorem commitPackage_failed (ctx : Ctx) (l : List MemPoolEntry) :
    ∀ s : AssemblyState, (commitPackage ctx s l).failedTx = s.failedTx := by
  induction l with
  | nil => intro s; rfl
  | cons e t ih =>
    intro s
    show (commitPackage ctx (commitEntry ctx s e) t).failedTx = _
    rw [ih, (commitEntry_fields ctx s e).2.2.2.2.1]

theorem commitPackage_refs_mono (ctx : Ctx) (l : List MemPoolEntry) :
    ∀ s : AssemblyState, s.refsInBlock ⊆ (commitPackage ctx s l).refsInBlock := by
  induction l with
  | nil => intro s; exact List.Subset.refl _
  | cons e t ih =>
    intro s
    have h1 : s.refsInBlock ⊆ (commitEntry ctx s e).refsInBlock := by
      rw [(commitEntry_fields ctx s e).2.2.2.2.2]
      exact List.subset_append_left _ _
    show s.refsInBlock ⊆ (commitPackage ctx (commitEntry ctx s e) t).refsInBlock
    exact List.Subset.trans h1 (ih (commitEntry ctx s e))

theorem commitPackage_refs_mem (ctx : Ctx) (l : List MemPoolEntry) :
    ∀ s : AssemblyState, ∀ e ∈ l, ∀ r ∈ e.requiredRefs, r ∉ ctx.chainRefs →
      r ∈ (commitPackage ctx s l).refsInBlock := by
  induction l with
  | nil =>
    intro s e he
    simp at he
  | cons p t ih =>
    intro s e he r hr hrc
    rcases List.mem_cons.mp he with rfl | he'
    · have hmem : r ∈ (commitEntry ctx s e).refsInBlock := by
        rw [(commitEntry_fields ctx s e).2.2.2.2.2]
        refine List.mem_append_right _ (List.mem_filter.mpr ⟨hr, ?_⟩)
        exact decide_eq_true hrc
      show r ∈ (commitPackage ctx (commitEntry ctx s e) t).refsInBlock
      exact commitPackage_refs_mono ctx t _ hmem
    · show r ∈ (commitPackage ctx (commitEntry ctx s p) t).refsInBlock
      exact ih _ e he' r hr hrc

theorem sumSize_perm {l1 l2 : List MemPoolEntry} (h : List.Perm l1 l2) :
    sumSize l1 = sumSize l2 := by
  unfold sumSize
  exact List.Perm.sum_eq (h.map _)

theorem sumSigOp_perm {l1 l2 : List MemPoolEntry} (h : List.Perm l1 l2) :
    sumSigOp l1 = sumSigOp l2 := by
  unfold sumSigOp
  exact List.Perm.sum_eq (h.map _)

theorem mem_packageOf {ctx : Ctx} {s : AssemblyState} {c p : MemPoolEntry} :
    p ∈ packageOf ctx s c ↔
      p = c ∨ (p ∈ ctx.pool ∧ p.txid ∈ c.ancestorIds ∧ p.txid ∉ s.txsInBlock) := by
  unfold packageOf onlyUnconfirmed inPoolAncestors
  simp [List.mem_filter, decide_eq_true_eq]
  tauto

theorem effectiveEntry_iter (pool : List MemPoolEntry) (s : AssemblyState)
    (e : MemPoolEntry) : (effectiveEntry pool s e).iter = e := by
  unfold effectiveEntry
  have h : ∀ (l : List MemPoolEntry) (me : CTxMemPoolModifiedEntry),
      (l.foldl (fun me a => update_for_parent_inclusion a me) me).iter = me.iter := by
    intro l
    induction l with
    | nil => intro me; rfl
    | cons a t ih =>
      intro me
      rw [List.foldl_cons]
      exact ih _
  rw [h]
  rfl

theorem selectBest_mem (l : List CTxMemPoolModifiedEntry) :
    ∀ m, selectBest l = some m → m ∈ l := by
  induction l with
  | nil =>
    intro m h
    simp [selectBest] at h
  | cons x xs ih =>
    intro m h
    cases hs : selectBest xs with
    | none =>
      simp only [selectBest, hs, Option.some.injEq] at h
      subst h
      exact List.mem_cons_self x xs
    | some b =>
      simp only [selectBest, hs] at h
      by_cases hc : CompareModifiedEntry x b = true
      · rw [if_pos hc, Option.some.injEq] at h
        subst h
        exact List.mem_cons_self x xs
      · rw [if_neg hc, Option.some.injEq] at h
        subst h
        exact List.mem_cons_of_mem x (ih b hs)

theorem selected_not_evaluated {ctx : Ctx} {s : AssemblyState}
    {m : CTxMemPoolModifiedEntry} (h : selectBest (eligible ctx s) = some m) :
    m.iter ∈ ctx.pool ∧ m.iter.txid ∉ s.txsInBlock ∧ m.iter.txid ∉ s.failedTx := by
  have hm := selectBest_mem _ _ h
  unfold eligible at hm
  rcases List.mem_map.mp hm with ⟨e, he, heq⟩
  rcases List.mem_filter.mp he with ⟨hepool, hskip⟩
  have hiter : m.iter = e := by rw [← heq, effectiveEntry_iter]
  have hsk : SkipMapTxEntry s e = false := by
    cases hk : SkipMapTxEntry s e with
    | false => rfl
    | true =>
      rw [hk] at hskip
      simp at hskip
  unfold SkipMapTxEntry at hsk
  simp only [Bool.or_eq_false_iff, decide_eq_false_iff_not] at hsk
  rw [hiter]
  exact ⟨hepool, hsk.1, hsk.2⟩

theorem stepFn_none {ctx : Ctx} {s : AssemblyState}
    (h : selectBest (eligible ctx s) = none) : stepFn ctx s = s := by
  unfold stepFn
  rw [h]

theorem stepFn_some {ctx : Ctx} {s : AssemblyState} {m : CTxMemPoolModifiedEntry}
    (h : selectBest (eligible ctx s) = some m) : stepFn ctx s = evalCandidate ctx s m := by
  unfold stepFn
  rw [h]

theorem evalCandidate_cases (ctx : Ctx) (s : AssemblyState) (m : CTxMemPoolModifiedEntry) :
    evalCandidate ctx s m = { s with failedTx := m.iter.txid :: s.failedTx } ∨
    (TestPackage ctx.opts s (sumSize (packageOf ctx s m.iter))
        (sumSigOp (packageOf ctx s m.iter)) = true ∧
      evalCandidate ctx s m = commitPackage ctx s (SortForBlock (packageOf ctx s m.iter))) := by
  unfold evalCandidate
  cases h1 : (CheckReferrals ctx.chainRefs (packageOf ctx s m.iter) ctx.refPool).1 with
  | false =>
    rw [if_pos (by decide)]
    left
    rfl
  | true =>
    rw [if_neg (by decide)]
    cases h2 : (TestPackage ctx.opts s (sumSize (packageOf ctx s m.iter))
        (sumSigOp (packageOf ctx s m.iter)) &&
      TestPackageContent (packageOf ctx s m.iter)) with
    | false =>
      rw [if_pos (by decide)]
      left
      rfl
    | true =>
      rw [if_neg (by decide)]
      right
      simp only [Bool.and_eq_true] at h2
      exact ⟨h2.1, rfl⟩

theorem evalCandidate_budget {ctx : Ctx} {s : AssemblyState} {m : CTxMemPoolModifiedEntry}
    (h : BudgetInv ctx.opts s) : BudgetInv ctx.opts (evalCandidate ctx s m) := by
  rcases evalCandidate_cases ctx s m with heq | ⟨htest, heq⟩
  · rw [heq]
    exact ⟨h.1, h.2.1, h.2.2⟩
  · rw [heq]
    unfold TestPackage at htest
    simp only [Bool.and_eq_true, decide_eq_true_eq] at htest
    obtain ⟨⟨hw, hs'⟩, hg⟩ := htest
    have hperm := SortForBlock_perm (packageOf ctx s m.iter)
    refine ⟨?_, ?_, ?_⟩
    · rw [commitPackage_weight, sumSize_perm hperm]
      exact hw
    · rw [commitPackage_size, sumSize_perm hperm]
      exact hs'
    · rw [commitPackage_sigops, sumSigOp_perm hperm]
      exact hg

theorem stepFn_budget {ctx : Ctx} {s : AssemblyState} (h : BudgetInv ctx.opts s) :
    BudgetInv ctx.opts (stepFn ctx s) := by
  cases hsel : selectBest (eligible ctx s) with
  | none =>
    rw [stepFn_none hsel]
    exact h
  | some m =>
    rw [stepFn_some hsel]
    exact evalCandidate_budget h

theorem assemblySteps_budget (ctx : Ctx) : ∀ k, BudgetInv ctx.opts (assemblySteps ctx k) := by
  intro k
  induction k with
  | zero => exact ⟨Nat.zero_le _, Nat.zero_le _, show (0 : Int) ≤ 80000 by norm_num⟩
  | succ k ih => exact stepFn_budget ih

theorem stepFn_failed_mono (ctx : Ctx) (s : AssemblyState) :
    s.failedTx ⊆ (stepFn ctx s).failedTx := by
  cases hsel : selectBest (eligible ctx s) with
  | none =>
    rw [stepFn_none hsel]
    exact List.Subset.refl _
  | some m =>
    rw [stepFn_some hsel]
    rcases evalCandidate_cases ctx s m with heq | ⟨_, heq⟩
    · rw [heq]
      show s.failedTx ⊆ m.iter.txid :: s.failedTx
      exact fun x hx => List.mem_cons_of_mem _ hx
    · rw [heq, commitPackage_failed]
      exact List.Subset.refl _

theorem stepFn_txs_mono (ctx : Ctx) (s : AssemblyState) :
    s.txsInBlock ⊆ (stepFn ctx s).txsInBlock := by
  cases hsel : selectBest (eligible ctx s) with
  | none =>
    rw [stepFn_none hsel]
    exact List.Subset.refl _
  | some m =>
    rw [stepFn_some hsel]
    rcases evalCandidate_cases ctx s m with heq | ⟨_, heq⟩
    · rw [heq]
      exact List.Subset.refl _
    · rw [heq, commitPackage_txs]
      exact List.subset_append_left _ _

theorem assemblySteps_failed_mono (ctx : Ctx) :
    ∀ {k k' : Nat}, k ≤ k' →
      (assemblySteps ctx k).failedTx ⊆ (assemblySteps ctx k').failedTx := by
  intro k k' h
  induction h with
  | refl => exact List.Subset.refl _
  | step h ih => exact List.Subset.trans ih (stepFn_failed_mono ctx _)

/-! ## Claim C3 -/

/-- Claim C3: budget conservation — after every iteration of the assembly
pass, and in particular in the final state the template is built from, the
running included weight is at most the configured maximum block weight,
the running included size at most the configured maximum block size, and
the running included sigop cost at most the protocol per-block limit. -/
theorem block_budget_conservation :
    (∀ (ctx : Ctx) (k : Nat),
      (assemblySteps ctx k).nBlockWeight ≤ ctx.opts.nBlockMaxWeight ∧
      (assemblySteps ctx k).nBlockSize ≤ ctx.opts.nBlockMaxSize ∧
      (assemblySteps ctx k).nBlockSigOpsCost ≤ MAX_BLOCK_SIGOPS_COST) ∧
    (∀ ctx : Ctx,
      (addPackageTxs ctx).nBlockWeight ≤ ctx.opts.nBlockMaxWeight ∧
      (addPackageTxs ctx).nBlockSize ≤ ctx.opts.nBlockMaxSize ∧
      (addPackageTxs ctx).nBlockSigOpsCost ≤ MAX_BLOCK_SIGOPS_COST) := by
  constructor
  · intro ctx k
    exact assemblySteps_budget ctx k
  · intro ctx
    exact assemblySteps_budget ctx _

/-! ## Claim C8 -/

/-- Claim C8: failed-set finality — the failed set and the included set
only grow across selector iterations; a selected candidate is never one
that is already failed or already committed (terminal states are never
revisited); and over any two points of the pass the failed set is
monotone. -/
theorem failed_set_terminal :
    (∀ (ctx : Ctx) (s : AssemblyState), s.failedTx ⊆ (stepFn ctx s).failedTx) ∧
    (∀ (ctx : Ctx) (s : AssemblyState), s.txsInBlock ⊆ (stepFn ctx s).txsInBlock) ∧
    (∀ (ctx : Ctx) (s : AssemblyState) (m : CTxMemPoolModifiedEntry),
      selectBest (eligible ctx s) = some m →
        m.iter.txid ∉ s.failedTx ∧ m.iter.txid ∉ s.txsInBlock) ∧
    (∀ (ctx : Ctx) (k k' : Nat), k ≤ k' →
      (assemblySteps ctx k).failedTx ⊆ (assemblySteps ctx k').failedTx) := by
  refine ⟨stepFn_failed_mono, stepFn_txs_mono, ?_, ?_⟩
  · intro ctx s m h
    obtain ⟨_, htx, hfail⟩ := selected_not_evaluated h
    exact ⟨hfail, htx⟩
  · intro ctx k k' h
    exact assemblySteps_failed_mono ctx h

/-- Witness for C8: across iterations one and two on the snapshot whose
only candidate fails its referral check, the failed set is monotone. -/
theorem failed_set_terminal_w :
    1 ≤ 2 ∧ (assemblySteps ctxM 1).failedTx ⊆ (assemblySteps ctxM 2).failedTx :=
  ⟨by decide, failed_set_terminal.2.2.2 ctxM 1 2 (by decide)⟩

theorem anc_in_commit {ctx : Ctx} {s : AssemblyState} {c : MemPoolEntry}
    (hwf : PoolWF ctx.pool) (hc : c ∈ ctx.pool) {aid : Nat} (haid : aid ∈ c.ancestorIds) :
    aid ∈ s.txsInBlock ∨ aid ∈ (packageOf ctx s c).map MemPoolEntry.txid := by
  by_cases hin : aid ∈ s.txsInBlock
  · exact Or.inl hin
  · obtain ⟨a, hapool, haeq, _⟩ := hwf.2 c hc aid haid
    right
    refine List.mem_map.mpr ⟨a, ?_, haeq⟩
    refine mem_packageOf.mpr (Or.inr ⟨hapool, ?_, ?_⟩)
    · rw [haeq]
      exact haid
    · rw [haeq]
      exact hin

theorem evalCandidate_anc {ctx : Ctx} {s : AssemblyState} {m : CTxMemPoolModifiedEntry}
    (hwf : PoolWF ctx.pool) (hm : m.iter ∈ ctx.pool) (hinv : AncInv ctx s) :
    AncInv ctx (evalCandidate ctx s m) := by
  rcases evalCandidate_cases ctx s m with heq | ⟨_, heq⟩
  · rw [heq]
    intro e he hein aid haid
    exact hinv e he hein aid haid
  · rw [heq]
    intro e he hein aid haid
    have htxs := commitPackage_txs ctx (SortForBlock (packageOf ctx s m.iter)) s
    rw [htxs] at hein ⊢
    have hpm : ∀ x : Nat,
        x ∈ (SortForBlock (packageOf ctx s m.iter)).map MemPoolEntry.txid ↔
          x ∈ (packageOf ctx s m.iter).map MemPoolEntry.txid :=
      fun x => ((SortForBlock_perm (packageOf ctx s m.iter)).map MemPoolEntry.txid).mem_iff
    rcases List.mem_append.mp hein with hold | hpkg
    · exact List.mem_append.mpr (Or.inl (hinv e he hold aid haid))
    · rw [hpm] at hpkg
      rcases List.mem_map.mp hpkg with ⟨p, hp, hpid⟩
      have hppool : p ∈ ctx.pool := by
        rcases mem_packageOf.mp hp with rfl | ⟨h1, _, _⟩
        · exact hm
        · exact h1
      have hpe : p = e := List.inj_on_of_nodup_map hwf.1 hppool he hpid
      subst hpe
      have haidc : aid ∈ m.iter.ancestorIds := by
        rcases mem_packageOf.mp hp with rfl | ⟨_, hpanc, _⟩
        · exact haid
        · obtain ⟨a, hapool, haeq, hsub⟩ := hwf.2 m.iter hm p.txid hpanc
          have hap : a = p := List.inj_on_of_nodup_map hwf.1 hapool hppool haeq
          subst hap
          exact hsub haid
      rcases anc_in_commit hwf hm haidc with h1 | h2
      · exact List.mem_append.mpr (Or.inl h1)
      · refine List.mem_append.mpr (Or.inr ?_)
        rw [hpm]
        exact h2

theorem stepFn_anc {ctx : Ctx} {s : AssemblyState} (hwf : PoolWF ctx.pool)
    (h : AncInv ctx s) : AncInv ctx (stepFn ctx s) := by
  cases hsel : selectBest (eligible ctx s) with
  | none =>
    rw [stepFn_none hsel]
    exact h
  | some m =>
    rw [stepFn_some hsel]
    exact evalCandidate_anc hwf (selected_not_evaluated hsel).1 h

theorem assemblySteps_anc (ctx : Ctx) (hwf : PoolWF ctx.pool) :
    ∀ k, AncInv ctx (assemblySteps ctx k) := by
  intro k
  induction k with
  | zero =>
    intro e _ hein
    simp [assemblySteps, resetBlock] at hein
  | succ k ih => exact stepFn_anc hwf ih

/-! ## Claim C2 -/

/-- Claim C2: package atomicity — in every template returned by
`CreateNewBlock` on a well-formed snapshot, every unconfirmed ancestor of
every included transaction is included in the same template. -/
theorem addPackageTxs_package_atomicity (scriptPubKeyIn : Nat) (ctx : Ctx)
    (hwf : PoolWF ctx.pool) :
    ∀ e ∈ ctx.pool, e.txid ∈ (CreateNewBlock scriptPubKeyIn ctx).vtx →
      ∀ aid ∈ e.ancestorIds, aid ∈ (CreateNewBlock scriptPubKeyIn ctx).vtx := by
  intro e he hin aid haid
  have hvtx : (CreateNewBlock scriptPubKeyIn ctx).vtx
      = (assemblySteps ctx (2 * ctx.pool.length + 1)).txsInBlock := rfl
  rw [hvtx] at hin ⊢
  exact assemblySteps_anc ctx hwf _ e he hin aid haid

/-- Witness for C2: on the concrete parent-child snapshot the child `txB`
is included and its ancestor 1 (`txA`) is included as well. -/
theorem addPackageTxs_package_atomicity_w :
    PoolWF ctxW.pool ∧ txB ∈ ctxW.pool ∧ txB.txid ∈ (CreateNewBlock 0 ctxW).vtx ∧
    1 ∈ txB.ancestorIds ∧ 1 ∈ (CreateNewBlock 0 ctxW).vtx :=
  ⟨by decide, by decide, by decide, by decide,
   addPackageTxs_package_atomicity 0 ctxW (by decide) txB (by decide) (by decide) 1 (by decide)⟩

theorem evalCandidate_ref {ctx : Ctx} {s : AssemblyState} {m : CTxMemPoolModifiedEntry}
    (hnd : (ctx.pool.map MemPoolEntry.txid).Nodup) (hm : m.iter ∈ ctx.pool)
    (hinv : RefInv ctx s) : RefInv ctx (evalCandidate ctx s m) := by
  rcases evalCandidate_cases ctx s m with heq | ⟨_, heq⟩
  · rw [heq]
    intro e he hein r hr
    exact hinv e he hein r hr
  · rw [heq]
    intro e he hein r hr
    have htxs := commitPackage_txs ctx (SortForBlock (packageOf ctx s m.iter)) s
    rw [htxs] at hein
    rcases List.mem_append.mp hein with hold | hpkg
    · rcases hinv e he hold r hr with hc | hrs
      · exact Or.inl hc
      · exact Or.inr (commitPackage_refs_mono ctx _ s hrs)
    · have hpm : ∀ x : Nat,
          x ∈ (SortForBlock (packageOf ctx s m.iter)).map MemPoolEntry.txid ↔
            x ∈ (packageOf ctx s m.iter).map MemPoolEntry.txid :=
        fun x => ((SortForBlock_perm (packageOf ctx s m.iter)).map MemPoolEntry.txid).mem_iff
      rw [hpm] at hpkg
      rcases List.mem_map.mp hpkg with ⟨p, hp, hpid⟩
      have hppool : p ∈ ctx.pool := by
        rcases mem_packageOf.mp hp with rfl | ⟨h1, _, _⟩
        · exact hm
        · exact h1
      have hpe : p = e := List.inj_on_of_nodup_map hnd hppool he hpid
      subst hpe
      by_cases hrc : r ∈ ctx.chainRefs
      · exact Or.inl hrc
      · right
        have hps : p ∈ SortForBlock (packageOf ctx s m.iter) :=
          (SortForBlock_perm _).mem_iff.mpr hp
        exact commitPackage_refs_mem ctx _ s p hps r hr hrc

theorem stepFn_ref {ctx : Ctx} {s : AssemblyState}
    (hnd : (ctx.pool.map MemPoolEntry.txid).Nodup) (h : RefInv ctx s) :
    RefInv ctx (stepFn ctx s) := by
  cases hsel : selectBest (eligible ctx s) with
  | none =>
    rw [stepFn_none hsel]
    exact h
  | some m =>
    rw [stepFn_some hsel]
    exact evalCandidate_ref hnd (selected_not_evaluated hsel).1 h

theorem assemblySteps_ref (ctx : Ctx) (hnd : (ctx.pool.map MemPoolEntry.txid).Nodup) :
    ∀ k, RefInv ctx (assemblySteps ctx k) := by
  intro k
  induction k with
  | zero =>
    intro e _ hein
    simp [assemblySteps, resetBlock] at hein
  | succ k ih => exact stepFn_ref hnd ih

/-! ## Claim C6 -/

/-- Claim C6: referral satisfaction — in every returned template every
referral-requiring output of every included transaction is satisfied
on-chain or by a referral included in the same template; and when a
selected candidate's package fails `CheckReferrals`, the candidate is
marked failed and no transaction or referral is added in that step. -/
theorem referral_satisfaction_and_package_failure :
    (∀ (scriptPubKeyIn : Nat) (ctx : Ctx), (ctx.pool.map MemPoolEntry.txid).Nodup →
      ∀ e ∈ ctx.pool, e.txid ∈ (CreateNewBlock scriptPubKeyIn ctx).vtx →
        ∀ r ∈ e.requiredRefs,
          r ∈ ctx.chainRefs ∨ r ∈ (CreateNewBlock scriptPubKeyIn ctx).refs) ∧
    (∀ (ctx : Ctx) (s : AssemblyState) (m : CTxMemPoolModifiedEntry),
      selectBest (eligible ctx s) = some m →
      (CheckReferrals ctx.chainRefs (packageOf ctx s m.iter) ctx.refPool).1 = false →
        (stepFn ctx s).txsInBlock = s.txsInBlock ∧
        (stepFn ctx s).refsInBlock = s.refsInBlock ∧
        m.iter.txid ∈ (stepFn ctx s).failedTx) := by
  constructor
  · intro spk ctx hnd e he hin r hr
    have hvtx : (CreateNewBlock spk ctx).vtx
        = (assemblySteps ctx (2 * ctx.pool.length + 1)).txsInBlock := rfl
    have hrefs : (CreateNewBlock spk ctx).refs
        = (assemblySteps ctx (2 * ctx.pool.length + 1)).refsInBlock := rfl
    rw [hvtx] at hin
    rw [hrefs]
    exact assemblySteps_ref ctx hnd _ e he hin r hr
  · intro ctx s m hsel hfail
    rw [stepFn_some hsel]
    unfold evalCandidate
    rw [hfail]
    rw [if_pos (by decide)]
    exact ⟨rfl, rfl, List.mem_cons_self _ _⟩

/-- Witness for C6: on `ctxR` the included transaction's required referral
7 is satisfied by the template; on `ctxM` the missing referral 9 makes the
only candidate fail without any inclusion. -/
theorem referral_satisfaction_and_package_failure_w :
    ((ctxR.pool.map MemPoolEntry.txid).Nodup ∧ txR ∈ ctxR.pool ∧
      txR.txid ∈ (CreateNewBlock 0 ctxR).vtx ∧ 7 ∈ txR.requiredRefs ∧
      (7 ∈ ctxR.chainRefs ∨ 7 ∈ (CreateNewBlock 0 ctxR).refs)) ∧
    (selectBest (eligible ctxM resetBlock) = some (CTxMemPoolModifiedEntry.init txM) ∧
      (CheckReferrals ctxM.chainRefs
          (packageOf ctxM resetBlock (CTxMemPoolModifiedEntry.init txM).iter)
          ctxM.refPool).1 = false ∧
      (stepFn ctxM resetBlock).txsInBlock = resetBlock.txsInBlock ∧
      (CTxMemPoolModifiedEntry.init txM).iter.txid ∈ (stepFn ctxM resetBlock).failedTx) := by
  constructor
  · exact ⟨by decide, by decide, by decide, by decide,
      referral_satisfaction_and_package_failure.1 0 ctxR (by decide) txR (by decide)
        (by decide) 7 (by decide)⟩
  · have h1 : selectBest (eligible ctxM resetBlock)
        = some (CTxMemPoolModifiedEntry.init txM) := by decide
    have h2 : (CheckReferrals ctxM.chainRefs
        (packageOf ctxM resetBlock (CTxMemPoolModifiedEntry.init txM).iter)
        ctxM.refPool).1 = false := by decide
    obtain ⟨ha, _, hc⟩ :=
      referral_satisfaction_and_package_failure.2 ctxM resetBlock
        (CTxMemPoolModifiedEntry.init txM) h1 h2
    exact ⟨h1, h2, ha, hc⟩
